import Mathlib

/-!
Shallow embedding of the red-black tree core of `src/Olelo.js`
(classes `Saying`, `Node`, `RedBlackTree`).

JavaScript mutable nodes become an inductive tree value; `null` children
become the `nil` constructor; the recursive return-based relinking of
`_insert`/`_balance`/`_rotateLeft`/`_rotateRight`/`_flipColors` becomes
functional tree construction.  Keys are JS strings compared with `<`,
embedded as Lean `String` with its lexicographic order.
-/

namespace Olelo

/-- Embeds `class Saying` of Olelo.js: a Hawaiian phrase, its English translation,
and explanations in both languages. -/
structure Saying where
  hawaiian : String
  english : String
  hawaiianExplanation : String
  englishExplanation : String
deriving DecidableEq, Repr

/-- Node colors: `'RED'` / `'BLACK'` strings in Olelo.js. -/
inductive Color where
  | RED : Color
  | BLACK : Color
deriving DecidableEq, Repr

/-- A tree of `Node`s of Olelo.js: each node stores a saying, `left` and
`right` children (JS `null` = `nil`), and a color. -/
inductive Tree where
  | nil : Tree
  | node (saying : Saying) (left : Tree) (right : Tree) (color : Color) : Tree
deriving DecidableEq, Repr

namespace Tree

/-- Embeds `node.left`, reading `nil` for an absent node (JS `null.left` would
throw; callers below only read it behind `_isRed` guards). -/
def left : Tree → Tree
  | nil => nil
  | node _ l _ _ => l

/-- Embeds `node.right`, reading `nil` for an absent node. -/
def right : Tree → Tree
  | nil => nil
  | node _ _ r _ => r

end Tree

namespace RedBlackTree

open Tree

/-- Embeds `RedBlackTree._isRed(node)`: `null` nodes are considered black. -/
def isRed : Tree → Bool
  | Tree.nil => false
  | Tree.node _ _ _ c => c = Color.RED

/-- Embeds `RedBlackTree._rotateLeft(node)`: the right child becomes the subtree
root, inheriting `node`'s color; `node` becomes RED and adopts the right
child's left subtree.  The JS precondition (`node.right` non-null, enforced
by the `_isRed` guard in `_balance`) corresponds to the first pattern; on
other shapes the JS code would throw, and we return the input unchanged
(the branch is unreachable from `_balance`). -/
def rotateLeft : Tree → Tree
  | Tree.node s l (Tree.node rs rl rr _) c =>
      Tree.node rs (Tree.node s l rl Color.RED) rr c
  | t => t

/-- Embeds `RedBlackTree._rotateRight(node)`: symmetric to `rotateLeft`. -/
def rotateRight : Tree → Tree
  | Tree.node s (Tree.node ls ll lr _) r c =>
      Tree.node ls ll (Tree.node s lr r Color.RED) c
  | t => t

/-- Embeds `RedBlackTree._flipColors(node)`: node becomes RED, both (non-null)
children BLACK.  Guarded in `_balance` by both children being red, hence
non-null. -/
def flipColors : Tree → Tree
  | Tree.node s (Tree.node ls ll lr _) (Tree.node rs rl rr _) _ =>
      Tree.node s (Tree.node ls ll lr Color.BLACK)
        (Tree.node rs rl rr Color.BLACK) Color.RED
  | t => t

/-- Case 1 of `_balance`: if the right child is red and the left child is
not, rotate left. -/
def balStep1 (t : Tree) : Tree :=
  if isRed t.right && !isRed t.left then rotateLeft t else t

/-- Case 2 of `_balance`: if the left child and its left child are red,
rotate right.  (`node.left.left` is only read when `node.left` is red,
hence non-null, mirroring the short-circuit `&&` of the JS guard.) -/
def balStep2 (t : Tree) : Tree :=
  if isRed t.left && isRed t.left.left then rotateRight t else t

/-- Case 3 of `_balance`: if both children are red, flip colors. -/
def balStep3 (t : Tree) : Tree :=
  if isRed t.left && isRed t.right then flipColors t else t

/-- Embeds `RedBlackTree._balance(node)`: the three sequential fix-up cases of
Olelo.js applied in source order to the successively updated node. -/
def balance (t : Tree) : Tree :=
  balStep3 (balStep2 (balStep1 t))

/-- Embeds `RedBlackTree._insert(node, newNode)` where `newNode = new Node(saying)`
is a fresh RED leaf: standard BST descent on the Hawaiian key; equal keys
fall through both comparisons (duplicate discarded); `_balance` runs on the
way back up. -/
def insertAux : Tree → Saying → Tree
  | Tree.nil, s => Tree.node s Tree.nil Tree.nil Color.RED
  | Tree.node ns l r c, s =>
      if s.hawaiian < ns.hawaiian then
        balance (Tree.node ns (insertAux l s) r c)
      else if ns.hawaiian < s.hawaiian then
        balance (Tree.node ns l (insertAux r s) c)
      else
        balance (Tree.node ns l r c)

/-- Embeds `this.root.color = 'BLACK'` after the recursive insert returns. -/
def setBlack : Tree → Tree
  | Tree.nil => Tree.nil
  | Tree.node s l r _ => Tree.node s l r Color.BLACK

/-- Embeds `RedBlackTree.insert(saying)`: recursive insert from the root, then the
root is forced BLACK. -/
def insert (t : Tree) (s : Saying) : Tree :=
  setBlack (insertAux t s)

/-- Embeds `RedBlackTree._search(node, hawaiian)`: BST descent, `null` on a null
node, the stored saying on an exact match. -/
def search : Tree → String → Option Saying
  | Tree.nil, _ => none
  | Tree.node ns l r _, k =>
      if k < ns.hawaiian then search l k
      else if ns.hawaiian < k then search r k
      else some ns

/-- Embeds `RedBlackTree.member(hawaiian)`: `!!this.search(hawaiian)`. -/
def member (t : Tree) (k : String) : Bool :=
  (search t k).isSome

/-- The error condition raised by `first()`/`last()` on an empty tree:
in Olelo.js the `while (node.left)` loop dereferences the `null` root and
the resulting runtime error propagates to the caller (the spec's
EmptyTreeError). -/
inductive TreeError where
  | emptyTreeError : TreeError
deriving DecidableEq, Repr

/-- The `while (node.left) node = node.left` loop of `first()`, started at
a node holding saying `s` with left subtree `l`. -/
def leftmost (s : Saying) : Tree → Saying
  | Tree.nil => s
  | Tree.node s' l _ _ => leftmost s' l

/-- The `while (node.right) node = node.right` loop of `last()`. -/
def rightmost (s : Saying) : Tree → Saying
  | Tree.nil => s
  | Tree.node s' _ r _ => rightmost s' r

/-- Embeds `RedBlackTree.first()`: leftmost saying; on an empty tree the null
dereference surfaces as an error. -/
def first : Tree → Except TreeError Saying
  | Tree.nil => Except.error TreeError.emptyTreeError
  | Tree.node s l _ _ => Except.ok (leftmost s l)

/-- Embeds `RedBlackTree.last()`: rightmost saying; fails on an empty tree. -/
def last : Tree → Except TreeError Saying
  | Tree.nil => Except.error TreeError.emptyTreeError
  | Tree.node s _ r _ => Except.ok (rightmost s r)

/-- The argument accepted by `predecessor`/`successor`: either a raw
Hawaiian key (a JS string) or a full `Saying` object. -/
inductive KeyOrSaying where
  | key (k : String) : KeyOrSaying
  | saying (s : Saying) : KeyOrSaying
deriving DecidableEq, Repr

/-- The `typeof saying === 'object' && saying !== null ? saying.hawaiian :
saying` dispatch at the top of `predecessor`/`successor`. -/
def extractKey : KeyOrSaying → String
  | KeyOrSaying.key k => k
  | KeyOrSaying.saying s => s.hawaiian

/-- The `while (current)` loop of `predecessor`: move right recording the
current node when the query key is greater, otherwise move left; `acc` is
the `predecessor` variable. -/
def predGo (k : String) : Tree → Option Saying → Option Saying
  | Tree.nil, acc => acc
  | Tree.node ns l r _, acc =>
      if ns.hawaiian < k then predGo k r (some ns) else predGo k l acc

/-- Embeds `RedBlackTree.predecessor(saying)`: extract the key, then run the
iterative descent from the root with a null candidate. -/
def predecessor (t : Tree) (a : KeyOrSaying) : Option Saying :=
  predGo (extractKey a) t none

/-- The `while (current)` loop of `successor`: move left recording the
current node when the query key is smaller, otherwise move right. -/
def succGo (k : String) : Tree → Option Saying → Option Saying
  | Tree.nil, acc => acc
  | Tree.node ns l r _, acc =>
      if k < ns.hawaiian then succGo k l (some ns) else succGo k r acc

/-- Embeds `RedBlackTree.successor(saying)`. -/
def successor (t : Tree) (a : KeyOrSaying) : Option Saying :=
  succGo (extractKey a) t none

/-! State-passing forms of the methods: a `RedBlackTree` object's state is
its `root` tree; each JS method is translated to a function from the state
to a result paired with the state after the call.  `insert` assigns
`this.root`; none of the query methods contains any assignment, so their
translations return the state they received. -/

/-- Embeds `insert` as a state transformer: it reassigns `this.root`. -/
def insertM (s : Saying) (t : Tree) : Unit × Tree :=
  ((), insert t s)

/-- Embeds `search` as a state transformer: no assignment occurs in its body. -/
def searchM (k : String) (t : Tree) : Option Saying × Tree :=
  (search t k, t)

/-- Embeds `member` as a state transformer. -/
def memberM (k : String) (t : Tree) : Bool × Tree :=
  (member t k, t)

/-- Embeds `first` as a state transformer. -/
def firstM (t : Tree) : Except TreeError Saying × Tree :=
  (first t, t)

/-- Embeds `last` as a state transformer. -/
def lastM (t : Tree) : Except TreeError Saying × Tree :=
  (last t, t)

/-- Embeds `predecessor` as a state transformer. -/
def predecessorM (a : KeyOrSaying) (t : Tree) : Option Saying × Tree :=
  (predecessor t a, t)

/-- Embeds `successor` as a state transformer. -/
def successorM (a : KeyOrSaying) (t : Tree) : Option Saying × Tree :=
  (successor t a, t)

/-! ### Observation functions

Specification-side observers of the tree: the in-order traversal of stored
sayings and keys, used to state the BST-order and functional-correctness
claims. -/

/-- In-order traversal of the stored sayings. -/
def entries : Tree → List Saying
  | Tree.nil => []
  | Tree.node s l r _ => entries l ++ s :: entries r

/-- In-order traversal of the stored Hawaiian keys. -/
def keys (t : Tree) : List String :=
  (entries t).map Saying.hawaiian

/-- Local left-leaning red-black color discipline: throughout the tree, no
right child is red, and a red node has no red left child. -/
def Good : Tree → Prop
  | Tree.nil => True
  | Tree.node _ l r c =>
      Good l ∧ Good r ∧ isRed r = false ∧ (c = Color.RED → isRed l = false)

/-- Black balance: `Balanced t n` says every root-to-`nil` path in `t`
contains exactly `n` black nodes below and including the root. -/
inductive Balanced : Tree → Nat → Prop
  | nil : Balanced Tree.nil 0
  | red {l r : Tree} {n : Nat} (s : Saying) :
      Balanced l n → Balanced r n → Balanced (Tree.node s l r Color.RED) n
  | black {l r : Tree} {n : Nat} (s : Saying) :
      Balanced l n → Balanced r n →
      Balanced (Tree.node s l r Color.BLACK) (n + 1)

/-- The transient shape produced by inserting below a red node: the root
is red with a red left child, both subtrees internally well-colored. -/
def BadT (t : Tree) : Prop :=
  ∃ y a z, t = Tree.node y a z Color.RED ∧
    isRed a = true ∧ Good a ∧ Good z ∧ isRed z = false

/-- Structural form of the BST order invariant: every key in a left
subtree is strictly below the node's key, every key in a right subtree
strictly above. -/
inductive Ordered : Tree → Prop
  | nil : Ordered Tree.nil
  | node {l r : Tree} {c : Color} (s : Saying) :
      Ordered l → Ordered r →
      (∀ e ∈ entries l, e.hawaiian < s.hawaiian) →
      (∀ e ∈ entries r, s.hawaiian < e.hawaiian) →
      Ordered (Tree.node s l r c)

/-- Trees obtainable from the empty tree by a sequence of public
`insert` calls. -/
inductive Reachable : Tree → Prop
  | empty : Reachable Tree.nil
  | step {t : Tree} (s : Saying) : Reachable t → Reachable (insert t s)

/-- Weight of crossing the link into subtree `u`: BLACK links and links
to absent children count 1, RED links count 0. -/
def linkWeight : Tree → Nat
  | Tree.nil => 1
  | Tree.node _ _ _ Color.BLACK => 1
  | Tree.node _ _ _ Color.RED => 0

/-- The list of BLACK-link counts along every path from the root of a
tree to an absent child, an absent child itself counting as a BLACK
link. -/
def pathCounts : Tree → List Nat
  | Tree.nil => [0]
  | Tree.node _ l r _ =>
      (pathCounts l).map (· + linkWeight l) ++
        (pathCounts r).map (· + linkWeight r)

/-- Color of the root node, when present. -/
def rootColor : Tree → Option Color
  | Tree.nil => none
  | Tree.node _ _ _ c => some c

/-- First sample saying from the test code of Olelo.js. -/
def sayingA : Saying :=
  { hawaiian := "Aloha kekahi i kekahi", english := "Love one another",
    hawaiianExplanation := "", englishExplanation := "" }

/-- Second sample saying from the test code of Olelo.js. -/
def sayingI : Saying :=
  { hawaiian := "I ka \u02BB\u014Dlelo no ke ola",
    english := "In language there is life",
    hawaiianExplanation := "", englishExplanation := "" }

/-- A saying sharing `sayingA`'s key with a different translation, used
to exercise the duplicate-key policy. -/
def sayingDup : Saying :=
  { hawaiian := "Aloha kekahi i kekahi", english := "changed",
    hawaiianExplanation := "", englishExplanation := "" }

/-- The two-saying tree built by the test code of Olelo.js. -/
def demoTree : Tree :=
  insert (insert Tree.nil sayingA) sayingI

@[simp]
theorem entries_nil : entries Tree.nil = [] := rfl

@[simp]
theorem entries_node :
    entries (Tree.node s l r c) = entries l ++ s :: entries r := rfl

theorem entries_rotateLeft (t : Tree) : entries (rotateLeft t) = entries t := by
  match t with
  | Tree.nil => rfl
  | Tree.node s l Tree.nil c => rfl
  | Tree.node s l (Tree.node rs rl rr rc) c => simp [rotateLeft]

theorem entries_rotateRight (t : Tree) : entries (rotateRight t) = entries t := by
  match t with
  | Tree.nil => rfl
  | Tree.node s Tree.nil r c => rfl
  | Tree.node s (Tree.node ls ll lr lc) r c => simp [rotateRight]

theorem entries_flipColors (t : Tree) : entries (flipColors t) = entries t := by
  match t with
  | Tree.nil => rfl
  | Tree.node s Tree.nil r c => rfl
  | Tree.node s (Tree.node ls ll lr lc) Tree.nil c => rfl
  | Tree.node s (Tree.node ls ll lr lc) (Tree.node rs rl rr rc) c =>
      simp [flipColors]

theorem entries_balStep1 (t : Tree) : entries (balStep1 t) = entries t := by
  unfold balStep1
  split
  · exact entries_rotateLeft t
  · rfl

theorem entries_balStep2 (t : Tree) : entries (balStep2 t) = entries t := by
  unfold balStep2
  split
  · exact entries_rotateRight t
  · rfl

theorem entries_balStep3 (t : Tree) : entries (balStep3 t) = entries t := by
  unfold balStep3
  split
  · exact entries_flipColors t
  · rfl

theorem entries_balance (t : Tree) : entries (balance t) = entries t := by
  simp [balance, entries_balStep1, entries_balStep2, entries_balStep3]

theorem entries_setBlack (t : Tree) : entries (setBlack t) = entries t := by
  cases t <;> rfl

theorem entries_insertAux_ne_nil (t : Tree) (s : Saying) :
    entries (insertAux t s) ≠ [] := by
  cases t with
  | nil => simp [insertAux]
  | node ns l r c =>
      unfold insertAux
      split_ifs <;> simp [entries_balance]

theorem mem_entries_insertAux {t : Tree} {s e : Saying}
    (h : e ∈ entries (insertAux t s)) : e = s ∨ e ∈ entries t := by
  induction t with
  | nil =>
      simp [insertAux] at h
      exact Or.inl h
  | node ns l r c ihl ihr =>
      unfold insertAux at h
      split_ifs at h with h1 h2 <;> rw [entries_balance] at h <;>
        simp only [entries_node, List.mem_append, List.mem_cons] at h ⊢
      · rcases h with h | h | h
        · rcases ihl h with h' | h'
          · exact Or.inl h'
          · exact Or.inr (Or.inl h')
        · exact Or.inr (Or.inr (Or.inl h))
        · exact Or.inr (Or.inr (Or.inr h))
      · rcases h with h | h | h
        · exact Or.inr (Or.inl h)
        · exact Or.inr (Or.inr (Or.inl h))
        · rcases ihr h with h' | h'
          · exact Or.inl h'
          · exact Or.inr (Or.inr (Or.inr h'))
      · exact Or.inr h

/-! ### Color invariants

The left-leaning red-black discipline maintained by `_insert`/`_balance`:
no red right child, no red node with a red left child (`Good`), and equal
black counts on all root-to-absent-child paths (`Balanced`). -/

@[simp]
theorem good_nil : Good Tree.nil := trivial

@[simp]
theorem good_node :
    Good (Tree.node s l r c) ↔
      Good l ∧ Good r ∧ isRed r = false ∧ (c = Color.RED → isRed l = false) :=
  Iff.rfl

@[simp]
theorem left_nil : Tree.nil.left = Tree.nil := rfl

@[simp]
theorem left_node : (Tree.node s l r c).left = l := rfl

@[simp]
theorem right_nil : Tree.nil.right = Tree.nil := rfl

@[simp]
theorem right_node : (Tree.node s l r c).right = r := rfl

@[simp]
theorem isRed_nil : isRed Tree.nil = false := rfl

@[simp]
theorem isRed_node : isRed (Tree.node s l r c) = decide (c = Color.RED) := rfl

theorem isRed_eq_true_iff {t : Tree} :
    isRed t = true ↔ ∃ s l r, t = Tree.node s l r Color.RED := by
  cases t with
  | nil => simp
  | node s l r c =>
      cases c <;> simp

/-- When no `_balance` case fires (right child not red, no two consecutive
red left links), `_balance` returns the node unchanged. -/
theorem balance_id {s : Saying} {l r : Tree} {c : Color}
    (hr : isRed r = false) (hll : isRed l = true → isRed l.left = false) :
    balance (Tree.node s l r c) = Tree.node s l r c := by
  cases hl : isRed l with
  | false => simp [balance, balStep1, balStep2, balStep3, hr, hl]
  | true =>
      have h2 := hll hl
      simp [balance, balStep1, balStep2, balStep3, hr, hl, h2]

/-- Case 2 then case 3 of `_balance` on the two-consecutive-red-left-links
shape: rotate right, then flip colors. -/
theorem balance_leftleft {s y aw : Saying} {al ar z r : Tree}
    (hr : isRed r = false) :
    balance (Tree.node s
        (Tree.node y (Tree.node aw al ar Color.RED) z Color.RED) r
        Color.BLACK) =
      Tree.node y (Tree.node aw al ar Color.BLACK)
        (Tree.node s z r Color.BLACK) Color.RED := by
  simp [balance, balStep1, balStep2, balStep3, rotateRight, flipColors, hr]

/-- Case 1 of `_balance` on a red right child with a non-red left child:
rotate left; no later case fires when the right child's right child is not
red. -/
theorem balance_rightred {s rs : Saying} {l rl rr : Tree} {c : Color}
    (hl : isRed l = false) (hrr : isRed rr = false) :
    balance (Tree.node s l (Tree.node rs rl rr Color.RED) c) =
      Tree.node rs (Tree.node s l rl Color.RED) rr c := by
  simp [balance, balStep1, balStep2, balStep3, rotateLeft, hl, hrr]

/-- Case 3 of `_balance` alone, on a node with two red children whose left
child's left child is not red: flip colors. -/
theorem balance_bothred {s lw rs : Saying} {la lb rl rr : Tree} {c : Color}
    (hla : isRed la = false) :
    balance (Tree.node s (Tree.node lw la lb Color.RED)
        (Tree.node rs rl rr Color.RED) c) =
      Tree.node s (Tree.node lw la lb Color.BLACK)
        (Tree.node rs rl rr Color.BLACK) Color.RED := by
  simp [balance, balStep1, balStep2, balStep3, flipColors, hla]

theorem good_red_left {t : Tree} (hg : Good t) (hr : isRed t = true) :
    isRed t.left = false := by
  cases t with
  | nil => simp at hr
  | node s l r c =>
      cases c with
      | RED => exact hg.2.2.2 rfl
      | BLACK => simp at hr

@[simp]
theorem badT_node_red :
    BadT (Tree.node s l r Color.RED) ↔
      isRed l = true ∧ Good l ∧ Good r ∧ isRed r = false := by
  constructor
  · rintro ⟨y, a, z, heq, h1, h2, h3, h4⟩
    injection heq with e1 e2 e3 e4
    subst e1; subst e2; subst e3
    exact ⟨h1, h2, h3, h4⟩
  · intro h
    exact ⟨s, l, r, rfl, h⟩

/-- Main color lemma for the recursive `_insert`: on a subtree satisfying
the left-leaning red-black discipline with black count `n`, the result has
black count `n` and is again well-colored — except that inserting below a
RED node may leave the transient red-root-with-red-left-child shape
(`BadT`), which the parent's `_balance` repairs. -/
theorem insertAux_spec (s : Saying) :
    ∀ (t : Tree) (n : Nat), Good t → Balanced t n →
      Balanced (insertAux t s) n ∧
      (Good (insertAux t s) ∨ (isRed t = true ∧ BadT (insertAux t s))) := by
  intro t
  induction t with
  | nil =>
      intro n _ hb
      cases hb
      exact ⟨Balanced.red s Balanced.nil Balanced.nil, Or.inl (by simp [insertAux])⟩
  | node ns l r c ihl ihr =>
      intro n hg hb
      obtain ⟨hgl, hgr, hrr, hcl⟩ := hg
      simp only [insertAux]
      cases hb with
      | red _ hbl hbr =>
          have hl : isRed l = false := hcl rfl
          split_ifs with h1 h2
          · -- insert into the left child of a red node
            obtain ⟨hbl', hcls⟩ := ihl n hgl hbl
            have hgl' : Good (insertAux l s) := by
              rcases hcls with h | ⟨hlred, _⟩
              · exact h
              · rw [hl] at hlred; cases hlred
            rw [balance_id hrr (good_red_left hgl')]
            refine ⟨Balanced.red ns hbl' hbr, ?_⟩
            cases hl' : isRed (insertAux l s) with
            | false => exact Or.inl ⟨hgl', hgr, hrr, fun _ => hl'⟩
            | true =>
                exact Or.inr ⟨by simp, badT_node_red.mpr ⟨hl', hgl', hgr, hrr⟩⟩
          · -- insert into the right child of a red node
            obtain ⟨hbr', hcls⟩ := ihr n hgr hbr
            have hgr' : Good (insertAux r s) := by
              rcases hcls with h | ⟨hrred, _⟩
              · exact h
              · rw [hrr] at hrred; cases hrred
            cases hr' : isRed (insertAux r s) with
            | false =>
                rw [balance_id hr' (good_red_left hgl)]
                exact ⟨Balanced.red ns hbl hbr',
                  Or.inl ⟨hgl, hgr', hr', fun _ => hl⟩⟩
            | true =>
                obtain ⟨rs, rl, rr', heq⟩ := isRed_eq_true_iff.mp hr'
                rw [heq] at hgr' hbr' ⊢
                obtain ⟨hgrl, hgrr, hrr', hred⟩ := hgr'
                rw [balance_rightred hl hrr']
                cases hbr' with
                | red _ hbrl hbrr =>
                    refine ⟨Balanced.red rs (Balanced.red ns hbl hbrl) hbrr, ?_⟩
                    exact Or.inr ⟨by simp, badT_node_red.mpr
                      ⟨by simp, ⟨hgl, hgrl, hred rfl, fun _ => hl⟩, hgrr, hrr'⟩⟩
          · -- duplicate key under a red node: no structural change
            rw [balance_id hrr (good_red_left hgl)]
            exact ⟨Balanced.red ns hbl hbr,
              Or.inl ⟨hgl, hgr, hrr, fun _ => hl⟩⟩
      | black _ hbl hbr =>
          split_ifs with h1 h2
          · -- insert into the left child of a black node
            obtain ⟨hbl', hcls⟩ := ihl _ hgl hbl
            rcases hcls with hgl' | ⟨hlred, hbad⟩
            · rw [balance_id hrr (good_red_left hgl')]
              exact ⟨Balanced.black ns hbl' hbr,
                Or.inl ⟨hgl', hgr, hrr, by simp⟩⟩
            · -- transient red-red shape from the left: rotate right, flip
              obtain ⟨y, a, z, hil, hared, hga, hgz, hzred⟩ := hbad
              rw [hil] at hbl' ⊢
              obtain ⟨aw, al, ar, heqa⟩ := isRed_eq_true_iff.mp hared
              rw [heqa] at hga hbl' ⊢
              obtain ⟨hgal, hgar, harr, haleft⟩ := hga
              rw [balance_leftleft hrr]
              cases hbl' with
              | red _ hba hbz =>
                  cases hba with
                  | red _ hbal hbar =>
                      refine ⟨Balanced.red y
                          (Balanced.black aw hbal hbar)
                          (Balanced.black ns hbz hbr), ?_⟩
                      exact Or.inl ⟨⟨hgal, hgar, harr, by simp⟩,
                        ⟨hgz, hgr, hrr, by simp⟩, by simp, fun _ => by simp⟩
          · -- insert into the right child of a black node
            obtain ⟨hbr', hcls⟩ := ihr _ hgr hbr
            have hgr' : Good (insertAux r s) := by
              rcases hcls with h | ⟨hrred, _⟩
              · exact h
              · rw [hrr] at hrred; cases hrred
            cases hr' : isRed (insertAux r s) with
            | false =>
                rw [balance_id hr' (good_red_left hgl)]
                exact ⟨Balanced.black ns hbl hbr',
                  Or.inl ⟨hgl, hgr', hr', by simp⟩⟩
            | true =>
                obtain ⟨rs, rl, rr', heq⟩ := isRed_eq_true_iff.mp hr'
                rw [heq] at hgr' hbr' ⊢
                obtain ⟨hgrl, hgrr, hrr', hred⟩ := hgr'
                cases hl : isRed l with
                | false =>
                    rw [balance_rightred hl hrr']
                    cases hbr' with
                    | red _ hbrl hbrr =>
                        refine ⟨Balanced.black rs
                            (Balanced.red ns hbl hbrl) hbrr, ?_⟩
                        exact Or.inl ⟨⟨hgl, hgrl, hred rfl, fun _ => hl⟩,
                          hgrr, hrr', by simp⟩
                | true =>
                    obtain ⟨lw, la, lb, heql⟩ := isRed_eq_true_iff.mp hl
                    rw [heql] at hgl hbl ⊢
                    obtain ⟨hgla, hglb, hlbr, hlred⟩ := hgl
                    rw [balance_bothred (hlred rfl)]
                    cases hbl with
                    | red _ hbla hblb =>
                        cases hbr' with
                        | red _ hbrl hbrr =>
                            refine ⟨Balanced.red ns
                                (Balanced.black lw hbla hblb)
                                (Balanced.black rs hbrl hbrr), ?_⟩
                            exact Or.inl ⟨⟨hgla, hglb, hlbr, by simp⟩,
                              ⟨hgrl, hgrr, hrr', by simp⟩, by simp, fun _ => by simp⟩
          · -- duplicate key under a black node: no structural change
            rw [balance_id hrr (good_red_left hgl)]
            exact ⟨Balanced.black ns hbl hbr,
              Or.inl ⟨hgl, hgr, hrr, by simp⟩⟩

/-! ### BST order -/

theorem sorted_append_iff {α : Type} {r : α → α → Prop} {l1 l2 : List α} :
    (l1 ++ l2).Sorted r ↔
      l1.Sorted r ∧ l2.Sorted r ∧ ∀ a ∈ l1, ∀ b ∈ l2, r a b :=
  List.pairwise_append

@[simp]
theorem keys_nil : keys Tree.nil = [] := rfl

@[simp]
theorem keys_node :
    keys (Tree.node s l r c) = keys l ++ s.hawaiian :: keys r := by
  simp [keys]

theorem keys_balance (t : Tree) : keys (balance t) = keys t := by
  simp [keys, entries_balance]

theorem keys_setBlack (t : Tree) : keys (setBlack t) = keys t := by
  simp [keys, entries_setBlack]

theorem mem_keys_insertAux {t : Tree} {s : Saying} {k : String}
    (h : k ∈ keys (insertAux t s)) : k = s.hawaiian ∨ k ∈ keys t := by
  rw [keys, List.mem_map] at h
  obtain ⟨e, he, rfl⟩ := h
  rcases mem_entries_insertAux he with rfl | h'
  · exact Or.inl rfl
  · exact Or.inr (List.mem_map_of_mem Saying.hawaiian h')

theorem sorted_keys_insertAux {t : Tree} (s : Saying)
    (hs : (keys t).Sorted (· < ·)) :
    (keys (insertAux t s)).Sorted (· < ·) := by
  induction t with
  | nil => simp [insertAux]
  | node ns l r c ihl ihr =>
      rw [keys_node, sorted_append_iff, List.sorted_cons] at hs
      obtain ⟨hsl, ⟨hns, hsr⟩, hcross⟩ := hs
      unfold insertAux
      split_ifs with h1 h2
      · rw [keys_balance, keys_node, sorted_append_iff, List.sorted_cons]
        refine ⟨ihl hsl, ⟨hns, hsr⟩, ?_⟩
        intro x hx y hy
        rcases mem_keys_insertAux hx with rfl | hx'
        · rcases List.mem_cons.mp hy with rfl | hy'
          · exact h1
          · exact lt_trans h1 (hns y hy')
        · exact hcross x hx' y hy
      · rw [keys_balance, keys_node, sorted_append_iff, List.sorted_cons]
        refine ⟨hsl, ⟨?_, ihr hsr⟩, ?_⟩
        · intro b hb
          rcases mem_keys_insertAux hb with rfl | hb'
          · exact h2
          · exact hns b hb'
        · intro x hx y hy
          rcases List.mem_cons.mp hy with rfl | hy'
          · exact hcross x hx ns.hawaiian (List.mem_cons_self _ _)
          · rcases mem_keys_insertAux hy' with rfl | hy''
            · exact lt_trans (hcross x hx ns.hawaiian (List.mem_cons_self _ _)) h2
            · exact hcross x hx y (List.mem_cons_of_mem _ hy'')
      · rw [keys_balance, keys_node, sorted_append_iff, List.sorted_cons]
        exact ⟨hsl, ⟨hns, hsr⟩, hcross⟩

/-! ### Trees reachable by public insertions -/

theorem good_setBlack {t : Tree} (h : Good t) : Good (setBlack t) := by
  cases t with
  | nil => trivial
  | node s l r c => exact ⟨h.1, h.2.1, h.2.2.1, by simp⟩

theorem balanced_setBlack {t : Tree} {n : Nat} (h : Balanced t n) :
    ∃ m, Balanced (setBlack t) m := by
  cases h with
  | nil => exact ⟨0, Balanced.nil⟩
  | red s hl hr => exact ⟨_, Balanced.black s hl hr⟩
  | black s hl hr => exact ⟨_, Balanced.black s hl hr⟩

theorem setBlack_setBlack (t : Tree) : setBlack (setBlack t) = setBlack t := by
  cases t <;> rfl

theorem isRed_of_fixed {t : Tree} (h : setBlack t = t) : isRed t = false := by
  cases t with
  | nil => rfl
  | node s l r c =>
      simp only [setBlack, Tree.node.injEq] at h
      rw [← h.2.2.2]
      rfl

/-- The invariant bundle holding for every reachable tree: color
discipline, black balance, black (or absent) root, and sorted in-order
keys. -/
theorem reachable_invariants {t : Tree} (h : Reachable t) :
    Good t ∧ (∃ n, Balanced t n) ∧ setBlack t = t ∧
      (keys t).Sorted (· < ·) := by
  induction h with
  | empty => exact ⟨trivial, ⟨0, Balanced.nil⟩, rfl, by simp⟩
  | step s _ ih =>
      obtain ⟨hg, ⟨n, hb⟩, hfix, hsort⟩ := ih
      obtain ⟨hb', hcls⟩ := insertAux_spec s _ n hg hb
      have hg' := hcls.resolve_right (by
        rintro ⟨hred, -⟩
        rw [isRed_of_fixed hfix] at hred
        cases hred)
      refine ⟨good_setBlack hg', balanced_setBlack hb', setBlack_setBlack _, ?_⟩
      rw [insert, keys_setBlack]
      exact sorted_keys_insertAux s hsort

/-! ### Structural BST order, search correctness, duplicate no-op -/

theorem ordered_of_sorted : ∀ {t : Tree},
    (keys t).Sorted (· < ·) → Ordered t := by
  intro t
  induction t with
  | nil => intro _; exact Ordered.nil
  | node ns l r c ihl ihr =>
      intro hs
      rw [keys_node, sorted_append_iff, List.sorted_cons] at hs
      obtain ⟨hsl, ⟨hns, hsr⟩, hcross⟩ := hs
      refine Ordered.node ns (ihl hsl) (ihr hsr) ?_ ?_
      · intro e he
        exact hcross e.hawaiian (List.mem_map_of_mem Saying.hawaiian he)
          ns.hawaiian (List.mem_cons_self _ _)
      · intro e he
        exact hns e.hawaiian (List.mem_map_of_mem Saying.hawaiian he)

theorem ordered_of_reachable {t : Tree} (h : Reachable t) : Ordered t :=
  ordered_of_sorted (reachable_invariants h).2.2.2

/-- On an ordered tree, `_search` finds any stored saying by its key. -/
theorem search_eq_some_of_mem {t : Tree} (ho : Ordered t) :
    ∀ {e : Saying}, e ∈ entries t → search t e.hawaiian = some e := by
  induction ho with
  | nil => intro e he; simp at he
  | node s hol hor hbl hbr ihl ihr =>
      intro e he
      rw [entries_node, List.mem_append, List.mem_cons] at he
      rcases he with hel | rfl | her
      · have hlt := hbl e hel
        rw [search, if_pos hlt]
        exact ihl hel
      · rw [search, if_neg (lt_irrefl _), if_neg (lt_irrefl _)]
      · have hlt := hbr e her
        rw [search, if_neg (asymm hlt), if_pos hlt]
        exact ihr her

/-- Every saying returned by `_search` is stored in the tree and has the
searched key. -/
theorem search_mem {t : Tree} {k : String} {e : Saying}
    (h : search t k = some e) : e ∈ entries t ∧ e.hawaiian = k := by
  induction t with
  | nil => simp [search] at h
  | node ns l r c ihl ihr =>
      rw [search] at h
      split_ifs at h with h1 h2
      · obtain ⟨hm, hk⟩ := ihl h
        exact ⟨by simp [hm], hk⟩
      · obtain ⟨hm, hk⟩ := ihr h
        exact ⟨by simp [hm], hk⟩
      · injection h with h'
        subst h'
        exact ⟨by simp, le_antisymm (not_lt.mp h1) (not_lt.mp h2)⟩

theorem ordered_node_left {s : Saying} {l r : Tree} {c : Color}
    (h : Ordered (Tree.node s l r c)) : Ordered l := by
  cases h with | node _ hl _ _ _ => exact hl

theorem ordered_node_right {s : Saying} {l r : Tree} {c : Color}
    (h : Ordered (Tree.node s l r c)) : Ordered r := by
  cases h with | node _ _ hr _ _ => exact hr

/-- When no `_balance` case can fire, `_balance` is the identity on a node
satisfying the color discipline. -/
theorem balance_eq_of_good {s : Saying} {l r : Tree} {c : Color}
    (hg : Good (Tree.node s l r c)) :
    balance (Tree.node s l r c) = Tree.node s l r c :=
  balance_id hg.2.2.1 (good_red_left hg.1)

/-- Inserting a key that is already stored leaves the recursive `_insert`
result structurally identical to its input: neither comparison branch is
taken at the matching node, and `_balance` finds nothing to fix anywhere
on the search path. -/
theorem insertAux_eq_of_mem {t : Tree} (hg : Good t) (ho : Ordered t)
    {s2 : Saying} (hk : s2.hawaiian ∈ keys t) : insertAux t s2 = t := by
  induction t with
  | nil => simp at hk
  | node ns l r c ihl ihr =>
      obtain ⟨hgl, hgr, hrr, hcl⟩ := hg
      rw [keys_node, List.mem_append, List.mem_cons] at hk
      rw [insertAux]
      split_ifs with h1 h2
      · rcases hk with hkl | hkm | hkr
        · rw [ihl hgl (ordered_node_left ho) hkl]
          exact balance_eq_of_good ⟨hgl, hgr, hrr, hcl⟩
        · exact absurd (hkm ▸ h1) (lt_irrefl _)
        · rw [keys, List.mem_map] at hkr
          obtain ⟨e, he, hkey⟩ := hkr
          cases ho with
          | node _ _ _ _ hbr =>
              exact absurd (hkey ▸ hbr e he) (asymm h1)
      · rcases hk with hkl | hkm | hkr
        · rw [keys, List.mem_map] at hkl
          obtain ⟨e, he, hkey⟩ := hkl
          cases ho with
          | node _ _ _ hbl _ =>
              exact absurd (hkey ▸ hbl e he) (asymm h2)
        · exact absurd (hkm ▸ h2) (lt_irrefl _)
        · rw [ihr hgr (ordered_node_right ho) hkr]
          exact balance_eq_of_good ⟨hgl, hgr, hrr, hcl⟩
      · exact balance_eq_of_good ⟨hgl, hgr, hrr, hcl⟩

/-- Duplicate-key insertion is a complete no-op at the public level. -/
theorem insert_eq_of_mem {t : Tree} (h : Reachable t) {s2 : Saying}
    (hk : s2.hawaiian ∈ keys t) : insert t s2 = t := by
  obtain ⟨hg, _, hfix, _⟩ := reachable_invariants h
  rw [insert, insertAux_eq_of_mem hg (ordered_of_reachable h) hk, hfix]

/-- A fresh key is present after the recursive `_insert`. -/
theorem mem_entries_insertAux_self {t : Tree} {e : Saying} :
    ∀ (hk : e.hawaiian ∉ keys t), e ∈ entries (insertAux t e) := by
  induction t with
  | nil => intro _; simp [insertAux]
  | node ns l r c ihl ihr =>
      intro hk
      rw [keys_node, List.mem_append, List.mem_cons] at hk
      push_neg at hk
      obtain ⟨hkl, hkm, hkr⟩ := hk
      rw [insertAux]
      split_ifs with h1 h2
      · rw [entries_balance, entries_node, List.mem_append]
        exact Or.inl (ihl hkl)
      · rw [entries_balance, entries_node, List.mem_append, List.mem_cons]
        exact Or.inr (Or.inr (ihr hkr))
      · exact absurd (le_antisymm (not_lt.mp h2) (not_lt.mp h1)) hkm

/-! ### Predecessor and successor -/

/-- Loop invariant of the `predecessor` descent: provided every recorded
candidate key is below the query key, the loop returns the greatest stored
key strictly below the query (or the candidate), and returns `null` only
when the candidate was `null` and nothing in the subtree lies below the
query. -/
theorem predGo_spec {k : String} :
    ∀ {t : Tree}, Ordered t → ∀ (acc : Option Saying),
      (∀ a, acc = some a → a.hawaiian < k) →
      (∀ p, predGo k t acc = some p →
          p.hawaiian < k ∧ (p ∈ entries t ∨ acc = some p) ∧
          ∀ e ∈ entries t, e.hawaiian < k → e.hawaiian ≤ p.hawaiian) ∧
      (predGo k t acc = none →
          acc = none ∧ ∀ e ∈ entries t, ¬ e.hawaiian < k) := by
  intro t ho
  induction ho with
  | nil =>
      intro acc hacc
      refine ⟨fun p hp => ⟨hacc p hp, Or.inr hp, by simp⟩, fun hp => ⟨hp, by simp⟩⟩
  | node ns hol hor hbl hbr ihl ihr =>
      intro acc hacc
      rw [predGo]
      split_ifs with hns
      · obtain ⟨ihsome, ihnone⟩ :=
          ihr (some ns) (fun a ha => by cases Option.some.inj ha; exact hns)
        constructor
        · intro p hp
          obtain ⟨hpk, hpmem, hpmax⟩ := ihsome p hp
          have hpin := hpmem.imp id (fun h => (Option.some.inj h).symm)
          have hnsp : ns.hawaiian ≤ p.hawaiian := by
            rcases hpin with h | rfl
            · exact le_of_lt (hbr p h)
            · exact le_refl _
          refine ⟨hpk, ?_, ?_⟩
          · rw [entries_node, List.mem_append, List.mem_cons]
            rcases hpin with h | rfl
            · exact Or.inl (Or.inr (Or.inr h))
            · exact Or.inl (Or.inr (Or.inl rfl))
          · intro e he hek
            rw [entries_node, List.mem_append, List.mem_cons] at he
            rcases he with hel | rfl | her
            · exact le_trans (le_of_lt (hbl e hel)) hnsp
            · exact hnsp
            · exact hpmax e her hek
        · intro hp
          obtain ⟨habs, -⟩ := ihnone hp
          cases habs
      · obtain ⟨ihsome, ihnone⟩ := ihl acc hacc
        constructor
        · intro p hp
          obtain ⟨hpk, hpmem, hpmax⟩ := ihsome p hp
          refine ⟨hpk, ?_, ?_⟩
          · rcases hpmem with h | h
            · exact Or.inl (by rw [entries_node, List.mem_append]; exact Or.inl h)
            · exact Or.inr h
          · intro e he hek
            rw [entries_node, List.mem_append, List.mem_cons] at he
            rcases he with hel | rfl | her
            · exact hpmax e hel hek
            · exact absurd hek hns
            · exact absurd (lt_trans (hbr e her) hek) hns
        · intro hp
          obtain ⟨haccn, hnone⟩ := ihnone hp
          refine ⟨haccn, ?_⟩
          intro e he
          rw [entries_node, List.mem_append, List.mem_cons] at he
          rcases he with hel | rfl | her
          · exact hnone e hel
          · exact hns
          · exact fun hek => hns (lt_trans (hbr e her) hek)

/-- Loop invariant of the `successor` descent, mirror image of
`predGo_spec`. -/
theorem succGo_spec {k : String} :
    ∀ {t : Tree}, Ordered t → ∀ (acc : Option Saying),
      (∀ a, acc = some a → k < a.hawaiian) →
      (∀ p, succGo k t acc = some p →
          k < p.hawaiian ∧ (p ∈ entries t ∨ acc = some p) ∧
          ∀ e ∈ entries t, k < e.hawaiian → p.hawaiian ≤ e.hawaiian) ∧
      (succGo k t acc = none →
          acc = none ∧ ∀ e ∈ entries t, ¬ k < e.hawaiian) := by
  intro t ho
  induction ho with
  | nil =>
      intro acc hacc
      refine ⟨fun p hp => ⟨hacc p hp, Or.inr hp, by simp⟩, fun hp => ⟨hp, by simp⟩⟩
  | node ns hol hor hbl hbr ihl ihr =>
      intro acc hacc
      rw [succGo]
      split_ifs with hns
      · obtain ⟨ihsome, ihnone⟩ :=
          ihl (some ns) (fun a ha => by cases Option.some.inj ha; exact hns)
        constructor
        · intro p hp
          obtain ⟨hpk, hpmem, hpmax⟩ := ihsome p hp
          have hpin := hpmem.imp id (fun h => (Option.some.inj h).symm)
          have hnsp : p.hawaiian ≤ ns.hawaiian := by
            rcases hpin with h | rfl
            · exact le_of_lt (hbl p h)
            · exact le_refl _
          refine ⟨hpk, ?_, ?_⟩
          · rw [entries_node, List.mem_append, List.mem_cons]
            rcases hpin with h | rfl
            · exact Or.inl (Or.inl h)
            · exact Or.inl (Or.inr (Or.inl rfl))
          · intro e he hek
            rw [entries_node, List.mem_append, List.mem_cons] at he
            rcases he with hel | rfl | her
            · exact hpmax e hel hek
            · exact hnsp
            · exact le_trans hnsp (le_of_lt (hbr e her))
        · intro hp
          obtain ⟨habs, -⟩ := ihnone hp
          cases habs
      · obtain ⟨ihsome, ihnone⟩ := ihr acc hacc
        constructor
        · intro p hp
          obtain ⟨hpk, hpmem, hpmax⟩ := ihsome p hp
          refine ⟨hpk, ?_, ?_⟩
          · rcases hpmem with h | h
            · refine Or.inl ?_
              rw [entries_node, List.mem_append, List.mem_cons]
              exact Or.inr (Or.inr h)
            · exact Or.inr h
          · intro e he hek
            rw [entries_node, List.mem_append, List.mem_cons] at he
            rcases he with hel | rfl | her
            · exact absurd (lt_trans hek (hbl e hel)) hns
            · exact absurd hek hns
            · exact hpmax e her hek
        · intro hp
          obtain ⟨haccn, hnone⟩ := ihnone hp
          refine ⟨haccn, ?_⟩
          intro e he
          rw [entries_node, List.mem_append, List.mem_cons] at he
          rcases he with hel | rfl | her
          · exact fun hek => hns (lt_trans hek (hbl e hel))
          · exact hns
          · exact hnone e her

/-! ### Minimum and maximum -/

/-- The `while (node.left)` descent of `first()` reaches the entry with
the least key of an ordered non-empty tree. -/
theorem leftmost_min :
    ∀ (l : Tree) (s : Saying) (r : Tree) (c : Color),
      Ordered (Tree.node s l r c) →
      leftmost s l ∈ entries (Tree.node s l r c) ∧
      ∀ e ∈ entries (Tree.node s l r c),
        (leftmost s l).hawaiian ≤ e.hawaiian := by
  intro l
  induction l with
  | nil =>
      intro s r c ho
      cases ho with
      | node _ _ _ _ hbr =>
          refine ⟨by simp [leftmost], ?_⟩
          intro e he
          rw [entries_node] at he
          simp only [entries_nil, List.nil_append, List.mem_cons] at he
          rcases he with rfl | her
          · exact le_refl _
          · exact le_of_lt (hbr e her)
  | node s' l' r' c' ihl' =>
      intro s r c ho
      cases ho with
      | node _ hol _ hbl hbr =>
          obtain ⟨hmem, hmin⟩ := ihl' s' r' c' hol
          have hms : (leftmost s' l').hawaiian < s.hawaiian :=
            hbl _ hmem
          refine ⟨?_, ?_⟩
          · rw [leftmost, entries_node, List.mem_append]
            exact Or.inl hmem
          · intro e he
            rw [entries_node, List.mem_append, List.mem_cons] at he
            rw [leftmost]
            rcases he with hel | rfl | her
            · exact hmin e hel
            · exact le_of_lt hms
            · exact le_of_lt (lt_trans hms (hbr e her))

/-- The `while (node.right)` descent of `last()` reaches the entry with
the greatest key of an ordered non-empty tree. -/
theorem rightmost_max :
    ∀ (r : Tree) (s : Saying) (l : Tree) (c : Color),
      Ordered (Tree.node s l r c) →
      rightmost s r ∈ entries (Tree.node s l r c) ∧
      ∀ e ∈ entries (Tree.node s l r c),
        e.hawaiian ≤ (rightmost s r).hawaiian := by
  intro r
  induction r with
  | nil =>
      intro s l c ho
      cases ho with
      | node _ _ _ hbl _ =>
          refine ⟨by simp [rightmost], ?_⟩
          intro e he
          rw [entries_node] at he
          simp only [entries_nil, List.mem_append, List.mem_cons,
            List.not_mem_nil, or_false] at he
          rcases he with hel | rfl
          · exact le_of_lt (hbl e hel)
          · exact le_refl _
  | node s' l' r' c' _ ihr' =>
      intro s l c ho
      cases ho with
      | node _ _ hor hbl hbr =>
          obtain ⟨hmem, hmax⟩ := ihr' s' l' c' hor
          have hms : s.hawaiian < (rightmost s' r').hawaiian :=
            hbr _ hmem
          refine ⟨?_, ?_⟩
          · rw [rightmost, entries_node, List.mem_append, List.mem_cons]
            exact Or.inr (Or.inr hmem)
          · intro e he
            rw [entries_node, List.mem_append, List.mem_cons] at he
            rw [rightmost]
            rcases he with hel | rfl | her
            · exact le_of_lt (lt_trans (hbl e hel) hms)
            · exact le_of_lt hms
            · exact hmax e her

/-! ### Black-link path counts -/

theorem linkWeight_add_isRed (u : Tree) :
    linkWeight u + (if isRed u = true then 1 else 0) = 1 := by
  cases u with
  | nil => rfl
  | node s l r c => cases c <;> rfl

theorem pathCounts_child {u : Tree} {n : Nat}
    (h : ∀ x ∈ pathCounts u, x = n + (if isRed u = true then 1 else 0)) :
    ∀ x ∈ pathCounts u, x + linkWeight u = n + 1 := by
  intro x hx
  have h1 := h x hx
  have h2 := linkWeight_add_isRed u
  cases hu : isRed u <;> simp [hu] at h1 h2 <;> omega

theorem pathCounts_step {s : Saying} {l r : Tree} {c : Color} {n : Nat}
    (hl : ∀ x ∈ pathCounts l, x + linkWeight l = n + 1)
    (hr : ∀ x ∈ pathCounts r, x + linkWeight r = n + 1) :
    ∀ m ∈ pathCounts (Tree.node s l r c), m = n + 1 := by
  intro m hm
  simp only [pathCounts, List.mem_append, List.mem_map] at hm
  rcases hm with ⟨x, hx, rfl⟩ | ⟨x, hx, rfl⟩
  · exact hl x hx
  · exact hr x hx

/-- A black-balanced tree has a constant black-link count on every
root-to-absent-child path: `n` plus one extra for crossing into a red
root. -/
theorem balanced_pathCounts {t : Tree} {n : Nat} (hb : Balanced t n) :
    ∀ m ∈ pathCounts t, m = n + (if isRed t = true then 1 else 0) := by
  induction hb with
  | nil =>
      intro m hm
      simp [pathCounts] at hm
      simp [hm]
  | red s hl hr ihl ihr =>
      intro m hm
      have := pathCounts_step (pathCounts_child ihl) (pathCounts_child ihr) m hm
      simpa using this
  | black s hl hr ihl ihr =>
      intro m hm
      have := pathCounts_step (pathCounts_child ihl) (pathCounts_child ihr) m hm
      simpa using this

/-! ### The claims -/

/-- C1: for every sequence of `insert` calls starting from the empty
tree, the tree satisfies the binary-search-tree order: the in-order
traversal of the Hawaiian keys is strictly increasing (hence duplicate
free) under lexicographic comparison and, node-wise, all keys in a left
subtree are strictly less and all keys in a right subtree strictly
greater than the node key. -/
theorem bstOrderInvariant {t : Tree} (h : Reachable t) :
    (keys t).Sorted (· < ·) ∧ Ordered t :=
  ⟨(reachable_invariants h).2.2.2,
    ordered_of_sorted (reachable_invariants h).2.2.2⟩

theorem bstOrderInvariant_witness :
    (keys demoTree).Sorted (· < ·) ∧ Ordered demoTree :=
  bstOrderInvariant
    (Reachable.step sayingI (Reachable.step sayingA Reachable.empty))

/-- C2: for every sequence of `insert` calls starting from the empty
tree, the tree is black-balanced: every path from the root to an absent
child crosses the same number of BLACK links, an absent child counting
as BLACK. -/
theorem blackBalanceInvariant {t : Tree} (h : Reachable t) :
    ∃ n, ∀ m ∈ pathCounts t, m = n := by
  obtain ⟨-, ⟨n, hb⟩, hfix, -⟩ := reachable_invariants h
  refine ⟨n, fun m hm => ?_⟩
  have hc := balanced_pathCounts hb m hm
  rw [isRed_of_fixed hfix] at hc
  simpa using hc

theorem blackBalanceInvariant_witness :
    ∃ n, ∀ m ∈ pathCounts demoTree, m = n :=
  blackBalanceInvariant
    (Reachable.step sayingI (Reachable.step sayingA Reachable.empty))

/-- C3: on every reachable tree, inserting an entry whose key is not yet
present and then searching for that key returns exactly the inserted
entry. -/
theorem insertSearchRoundTrip {t : Tree} (h : Reachable t) (e : Saying)
    (he : e.hawaiian ∉ keys t) :
    search (insert t e) e.hawaiian = some e := by
  have h' : Reachable (insert t e) := Reachable.step e h
  refine search_eq_some_of_mem (ordered_of_reachable h') ?_
  rw [insert, entries_setBlack]
  exact mem_entries_insertAux_self he

theorem insertSearchRoundTrip_witness :
    search (insert (insert Tree.nil sayingA) sayingI) sayingI.hawaiian =
      some sayingI :=
  insertSearchRoundTrip (Reachable.step sayingA Reachable.empty) sayingI
    (by decide)

/-- C4: on every reachable tree already containing an entry `e1` with
key `k`, inserting any entry `e2` with the same key is a no-op: the tree
(structure, colors and stored entries) is unchanged, and `search k`
still returns `e1`, not `e2`. -/
theorem duplicateInsertNoop {t : Tree} (h : Reachable t) (e1 : Saying)
    (he1 : e1 ∈ entries t) (e2 : Saying)
    (hk : e2.hawaiian = e1.hawaiian) :
    insert t e2 = t ∧ search (insert t e2) e1.hawaiian = some e1 := by
  have hmem : e2.hawaiian ∈ keys t := by
    rw [hk]
    exact List.mem_map_of_mem Saying.hawaiian he1
  have hnoop := insert_eq_of_mem h hmem
  refine ⟨hnoop, ?_⟩
  rw [hnoop]
  exact search_eq_some_of_mem (ordered_of_reachable h) he1

theorem duplicateInsertNoop_witness :
    insert (insert Tree.nil sayingA) sayingDup = insert Tree.nil sayingA ∧
      search (insert (insert Tree.nil sayingA) sayingDup) sayingA.hawaiian =
        some sayingA :=
  duplicateInsertNoop (Reachable.step sayingA Reachable.empty) sayingA
    (by decide) sayingDup (by decide)

/-- C5: on every reachable tree and for every query key `k`, stored or
not, `predecessor` returns a stored entry with the greatest key strictly
less than `k`, and returns `null` exactly when no stored key is strictly
less than `k`. -/
theorem predecessorCorrect {t : Tree} (h : Reachable t) (k : String) :
    (∀ p, predecessor t (KeyOrSaying.key k) = some p →
        p ∈ entries t ∧ p.hawaiian < k ∧
        ∀ e ∈ entries t, e.hawaiian < k → e.hawaiian ≤ p.hawaiian) ∧
    (predecessor t (KeyOrSaying.key k) = none →
        ∀ e ∈ entries t, ¬ e.hawaiian < k) := by
  obtain ⟨hsome, hnone⟩ :=
    predGo_spec (ordered_of_reachable h) none (by simp)
  constructor
  · intro p hp
    obtain ⟨hpk, hpmem, hpmax⟩ := hsome p hp
    rcases hpmem with hm | hm
    · exact ⟨hm, hpk, hpmax⟩
    · cases hm
  · intro hp
    exact ((hnone hp).2)

theorem predecessorCorrect_witness :
    (∀ p, predecessor demoTree (KeyOrSaying.key sayingI.hawaiian) = some p →
        p ∈ entries demoTree ∧ p.hawaiian < sayingI.hawaiian ∧
        ∀ e ∈ entries demoTree, e.hawaiian < sayingI.hawaiian →
          e.hawaiian ≤ p.hawaiian) ∧
    (predecessor demoTree (KeyOrSaying.key sayingI.hawaiian) = none →
        ∀ e ∈ entries demoTree, ¬ e.hawaiian < sayingI.hawaiian) :=
  predecessorCorrect
    (Reachable.step sayingI (Reachable.step sayingA Reachable.empty))
    sayingI.hawaiian

/-- C6: on every reachable tree and for every query key `k`, stored or
not, `successor` returns a stored entry with the least key strictly
greater than `k`, and returns `null` exactly when no stored key is
strictly greater than `k`. -/
theorem successorCorrect {t : Tree} (h : Reachable t) (k : String) :
    (∀ p, successor t (KeyOrSaying.key k) = some p →
        p ∈ entries t ∧ k < p.hawaiian ∧
        ∀ e ∈ entries t, k < e.hawaiian → p.hawaiian ≤ e.hawaiian) ∧
    (successor t (KeyOrSaying.key k) = none →
        ∀ e ∈ entries t, ¬ k < e.hawaiian) := by
  obtain ⟨hsome, hnone⟩ :=
    succGo_spec (ordered_of_reachable h) none (by simp)
  constructor
  · intro p hp
    obtain ⟨hpk, hpmem, hpmax⟩ := hsome p hp
    rcases hpmem with hm | hm
    · exact ⟨hm, hpk, hpmax⟩
    · cases hm
  · intro hp
    exact ((hnone hp).2)

theorem successorCorrect_witness :
    (∀ p, successor demoTree (KeyOrSaying.key sayingA.hawaiian) = some p →
        p ∈ entries demoTree ∧ sayingA.hawaiian < p.hawaiian ∧
        ∀ e ∈ entries demoTree, sayingA.hawaiian < e.hawaiian →
          p.hawaiian ≤ e.hawaiian) ∧
    (successor demoTree (KeyOrSaying.key sayingA.hawaiian) = none →
        ∀ e ∈ entries demoTree, ¬ sayingA.hawaiian < e.hawaiian) :=
  successorCorrect
    (Reachable.step sayingI (Reachable.step sayingA Reachable.empty))
    sayingA.hawaiian

/-- The public `insert` never leaves the tree empty. -/
theorem insert_ne_nil (t : Tree) (s : Saying) : insert t s ≠ Tree.nil := by
  intro h
  have hne := entries_insertAux_ne_nil t s
  rw [insert] at h
  cases hu : insertAux t s with
  | nil => rw [hu] at hne; simp at hne
  | node ns l r c => rw [hu] at h; cases h

/-- C7: on the empty tree both `first()` and `last()` fail with the
empty-tree error, surfaced to the caller rather than any placeholder
value; on every non-empty reachable tree, `first()` returns the entry
with the smallest stored key and `last()` the entry with the largest. -/
theorem firstLastSpec :
    (first Tree.nil = Except.error TreeError.emptyTreeError ∧
      last Tree.nil = Except.error TreeError.emptyTreeError) ∧
    ∀ t : Tree, Reachable t → t ≠ Tree.nil →
      (∃ m, first t = Except.ok m ∧ m ∈ entries t ∧
          ∀ e ∈ entries t, m.hawaiian ≤ e.hawaiian) ∧
      (∃ m, last t = Except.ok m ∧ m ∈ entries t ∧
          ∀ e ∈ entries t, e.hawaiian ≤ m.hawaiian) := by
  refine ⟨⟨rfl, rfl⟩, ?_⟩
  intro t h hne
  have ho := ordered_of_reachable h
  cases t with
  | nil => exact absurd rfl hne
  | node s l r c =>
      obtain ⟨hm1, hmin⟩ := leftmost_min l s r c ho
      obtain ⟨hm2, hmax⟩ := rightmost_max r s l c ho
      exact ⟨⟨leftmost s l, rfl, hm1, hmin⟩,
        ⟨rightmost s r, rfl, hm2, hmax⟩⟩

theorem firstLastSpec_witness :
    (∃ m, first demoTree = Except.ok m ∧ m ∈ entries demoTree ∧
        ∀ e ∈ entries demoTree, m.hawaiian ≤ e.hawaiian) ∧
    (∃ m, last demoTree = Except.ok m ∧ m ∈ entries demoTree ∧
        ∀ e ∈ entries demoTree, e.hawaiian ≤ m.hawaiian) :=
  firstLastSpec.2 demoTree
    (Reachable.step sayingI (Reachable.step sayingA Reachable.empty))
    (insert_ne_nil (insert Tree.nil sayingA) sayingI)

/-- C8: after every public `insert` call returns, the tree is non-empty
and its root is colored BLACK. -/
theorem insertRootBlack (t : Tree) (s : Saying) :
    rootColor (insert t s) = some Color.BLACK := by
  have hne := entries_insertAux_ne_nil t s
  rw [insert]
  cases h : insertAux t s with
  | nil =>
      rw [h] at hne
      simp at hne
  | node ns l r c => rfl

/-- C9: on every reachable tree, calling `predecessor` (respectively
`successor`) with a full `Saying` object gives the same result as calling
it with the raw key of that saying: both forms compare only the extracted
key. -/
theorem predSuccKeyExtraction {t : Tree} (h : Reachable t) (e : Saying) :
    predecessor t (KeyOrSaying.saying e) =
        predecessor t (KeyOrSaying.key e.hawaiian) ∧
      successor t (KeyOrSaying.saying e) =
        successor t (KeyOrSaying.key e.hawaiian) :=
  ⟨rfl, rfl⟩

theorem predSuccKeyExtraction_witness :
    predecessor demoTree (KeyOrSaying.saying sayingI) =
        predecessor demoTree (KeyOrSaying.key sayingI.hawaiian) ∧
      successor demoTree (KeyOrSaying.saying sayingI) =
        successor demoTree (KeyOrSaying.key sayingI.hawaiian) :=
  predSuccKeyExtraction
    (Reachable.step sayingI (Reachable.step sayingA Reachable.empty))
    sayingI

/-- C10: the query operations `search`, `member`, `first`, `last`,
`predecessor` and `successor`, read as state transformers on the tree
owned by the `RedBlackTree` object, leave the tree exactly as they found
it on every reachable tree. -/
theorem queriesPreserveTree {t : Tree} (h : Reachable t) (k : String)
    (a : KeyOrSaying) :
    (searchM k t).2 = t ∧ (memberM k t).2 = t ∧ (firstM t).2 = t ∧
      (lastM t).2 = t ∧ (predecessorM a t).2 = t ∧
      (successorM a t).2 = t :=
  ⟨rfl, rfl, rfl, rfl, rfl, rfl⟩

theorem queriesPreserveTree_witness :
    (searchM sayingA.hawaiian demoTree).2 = demoTree ∧
      (memberM sayingA.hawaiian demoTree).2 = demoTree ∧
      (firstM demoTree).2 = demoTree ∧ (lastM demoTree).2 = demoTree ∧
      (predecessorM (KeyOrSaying.key sayingA.hawaiian) demoTree).2 =
        demoTree ∧
      (successorM (KeyOrSaying.key sayingA.hawaiian) demoTree).2 =
        demoTree :=
  queriesPreserveTree
    (Reachable.step sayingI (Reachable.step sayingA Reachable.empty))
    sayingA.hawaiian (KeyOrSaying.key sayingA.hawaiian)

end RedBlackTree

end Olelo
